import Mathlib

/-!
Verification of the Desearch validator's Reward & Reputation Engine.

The definitions below are a shallow embedding of the Python sources:
* `neurons/validators/validator.py` (`update_moving_averaged_scores`,
  `get_uids`, `get_available_uids_is_alive` / `check_uid`, `sync`,
  `blocks_until_next_epoch`, `should_set_weights`),
* `neurons/validators/organic_history_mixin.py`,
* `neurons/validators/penalty/task_validation.py`,
* `neurons/validators/reward/reward_llm.py` (`llm_processing`).

Torch float tensors are modelled as `List ℚ`; timestamps as `ℚ`;
external collaborators (dendrite transport, uid manager, scoring
oracles, criteria evaluators) as abstract function parameters.
-/

set_option maxHeartbeats 1000000

namespace Desearch

/-! ### Moving-average reputation store
`Neuron.update_moving_averaged_scores(uids, rewards)`:
`scattered = moving_averaged_scores.scatter(0, uids, rewards)` followed by
`moving_averaged_scores = alpha * scattered + (1 - alpha) * moving_averaged_scores`.
`scatter` writes `rewards[i]` at position `uids[i]` and keeps the old value
elsewhere. -/

/-- One scattered entry: the reward paired with position `p` if any, else the
old score at `p`. -/
def scatterAux (pairs : List (Nat × ℚ)) (p : Nat) (old : ℚ) : ℚ :=
  match pairs.find? (fun q => q.1 == p) with
  | some q => q.2
  | none => old

/-- `tensor.scatter(0, uids, rewards)` over the suffix of the score vector
starting at position `p`. -/
def scatterFrom (pairs : List (Nat × ℚ)) (p : Nat) : List ℚ → List ℚ
  | [] => []
  | s :: rest => scatterAux pairs p s :: scatterFrom pairs (p + 1) rest

/-- `Neuron.update_moving_averaged_scores`: scatter the rewards over the score
vector, then blend elementwise with
`alpha * scattered + (1 - alpha) * old`. -/
def update_moving_averaged_scores (alpha : ℚ) (scores : List ℚ)
    (uids : List Nat) (rewards : List ℚ) : List ℚ :=
  List.zipWith (fun sc old => alpha * sc + (1 - alpha) * old)
    (scatterFrom (uids.zip rewards) 0 scores) scores

theorem length_scatterFrom (pairs : List (Nat × ℚ)) :
    ∀ (l : List ℚ) (p : Nat), (scatterFrom pairs p l).length = l.length := by
  intro l
  induction l with
  | nil => intro p; rfl
  | cons s rest ih => intro p; simp [scatterFrom, ih]

theorem getD_scatterFrom (pairs : List (Nat × ℚ)) :
    ∀ (l : List ℚ) (p i : Nat), i < l.length →
      (scatterFrom pairs p l).getD i 0 = scatterAux pairs (p + i) (l.getD i 0) := by
  intro l
  induction l with
  | nil => intro p i h; simp at h
  | cons s rest ih =>
    intro p i h
    cases i with
    | zero => simp [scatterFrom]
    | succ j =>
      simp only [scatterFrom, List.getD_cons_succ]
      rw [ih (p + 1) j (by simpa using h)]
      ring_nf

theorem mem_scatterFrom (pairs : List (Nat × ℚ)) :
    ∀ (l : List ℚ) (p : Nat) (x : ℚ), x ∈ scatterFrom pairs p l →
      (∃ q ∈ pairs, x = q.2) ∨ x ∈ l := by
  intro l
  induction l with
  | nil => intro p x h; simp [scatterFrom] at h
  | cons s rest ih =>
    intro p x h
    simp only [scatterFrom, List.mem_cons] at h
    rcases h with h | h
    · unfold scatterAux at h
      rcases hf : (pairs.find? (fun q => q.1 == p)) with _ | q
      · rw [hf] at h; right; simp [h]
      · rw [hf] at h
        left
        exact ⟨q, List.mem_of_find?_eq_some hf, h⟩
    · rcases ih (p + 1) x h with h' | h'
      · left; exact h'
      · right; simp [h']

theorem getD_zipWith_blend (f : ℚ → ℚ → ℚ) :
    ∀ (a b : List ℚ) (i : Nat), i < a.length → i < b.length →
      (List.zipWith f a b).getD i 0 = f (a.getD i 0) (b.getD i 0) := by
  intro a
  induction a with
  | nil => intro b i h; simp at h
  | cons x xs ih =>
    intro b i ha hb
    cases b with
    | nil => simp at hb
    | cons y ys =>
      cases i with
      | zero => simp [List.zipWith]
      | succ j =>
        simp only [List.zipWith, List.getD_cons_succ]
        exact ih ys j (by simpa using ha) (by simpa using hb)

theorem mem_zipWith_blend (f : ℚ → ℚ → ℚ) :
    ∀ (a b : List ℚ) (x : ℚ), x ∈ List.zipWith f a b →
      ∃ u v, u ∈ a ∧ v ∈ b ∧ x = f u v := by
  intro a
  induction a with
  | nil => intro b x h; simp at h
  | cons c cs ih =>
    intro b x h
    cases b with
    | nil => simp at h
    | cons d ds =>
      simp only [List.zipWith, List.mem_cons] at h
      rcases h with h | h
      · exact ⟨c, d, by simp, by simp, h⟩
      · rcases ih ds x h with ⟨u, v, hu, hv, hx⟩
        exact ⟨u, v, by simp [hu], by simp [hv], hx⟩

/-- C1: with rewards, prior scores and the smoothing constant in `[0,1]`,
every entry of the updated moving-average score vector lies in `[0,1]`. -/
theorem update_moving_averaged_scores_bounded (alpha : ℚ)
    (scores rewards : List ℚ) (uids : List Nat)
    (halpha : 0 ≤ alpha ∧ alpha ≤ 1)
    (hr : ∀ r ∈ rewards, 0 ≤ r ∧ r ≤ 1)
    (hs : ∀ s ∈ scores, 0 ≤ s ∧ s ≤ 1) :
    ∀ x ∈ update_moving_averaged_scores alpha scores uids rewards,
      0 ≤ x ∧ x ≤ 1 := by
  intro x hx
  unfold update_moving_averaged_scores at hx
  rcases mem_zipWith_blend _ _ _ _ hx with ⟨u, v, hu, hv, hx'⟩
  have hub : 0 ≤ u ∧ u ≤ 1 := by
    rcases mem_scatterFrom _ _ _ _ hu with ⟨q, hq, hq2⟩ | hmem
    · have : q.2 ∈ rewards := (List.of_mem_zip hq).2
      rw [hq2]; exact hr _ this
    · exact hs _ hmem
  have hvb : 0 ≤ v ∧ v ≤ 1 := hs _ hv
  subst hx'
  constructor
  · have h1 : 0 ≤ alpha * u := mul_nonneg halpha.1 hub.1
    have h2 : 0 ≤ (1 - alpha) * v :=
      mul_nonneg (by linarith [halpha.2]) hvb.1
    linarith
  · have h1 : alpha * u ≤ alpha := by
      calc alpha * u ≤ alpha * 1 :=
            mul_le_mul_of_nonneg_left hub.2 halpha.1
        _ = alpha := by ring
    have h2 : (1 - alpha) * v ≤ 1 - alpha := by
      calc (1 - alpha) * v ≤ (1 - alpha) * 1 :=
            mul_le_mul_of_nonneg_left hvb.2 (by linarith [halpha.2])
        _ = 1 - alpha := by ring
    linarith

theorem update_moving_averaged_scores_bounded_witness :
    (0 ≤ (1/2 : ℚ) ∧ (1/2 : ℚ) ≤ 1) ∧
    (∀ x ∈ update_moving_averaged_scores (1/2) [0, 1] [0] [1],
      0 ≤ x ∧ x ≤ 1) :=
  ⟨by norm_num,
    update_moving_averaged_scores_bounded (1/2) [0, 1] [1] [0]
      ⟨by norm_num, by norm_num⟩ (by decide) (by decide)⟩

theorem find?_zip_eq_none (uids : List Nat) (rewards : List ℚ) (p : Nat)
    (hp : p ∉ uids) :
    (uids.zip rewards).find? (fun q => q.1 == p) = none := by
  apply List.find?_eq_none.2
  intro q hq
  have hq1 : q.1 ∈ uids := (List.of_mem_zip hq).1
  simp only [beq_iff_eq]
  intro h
  exact hp (h ▸ hq1)

theorem find?_zip_nodup :
    ∀ (uids : List Nat) (rewards : List ℚ) (i : Nat), uids.Nodup →
      i < uids.length → i < rewards.length →
      (uids.zip rewards).find? (fun q => q.1 == uids.getD i 0)
        = some (uids.getD i 0, rewards.getD i 0) := by
  intro uids
  induction uids with
  | nil => intro rewards i _ h; simp at h
  | cons u us ih =>
    intro rewards i hnd hi hir
    cases rewards with
    | nil => simp at hir
    | cons r rs =>
      cases i with
      | zero => simp [List.zip, List.find?]
      | succ j =>
        have hj : j < us.length := by simpa using hi
        have hjr : j < rs.length := by simpa using hir
        have hkey : us.getD j 0 ∈ us := by
          rw [List.getD_eq_getElem us 0 hj]
          exact List.getElem_mem hj
        have hne : (u == (u :: us).getD (j + 1) 0) = false := by
          simp only [List.getD_cons_succ, beq_eq_false_iff_ne]
          intro h
          exact (List.nodup_cons.1 hnd).1 (h ▸ hkey)
        simp only [List.getD_cons_succ] at hne ⊢
        rw [List.zip_cons_cons, List.find?_cons_of_neg _ (by simp [hne]; intro h; simp [h] at hne)]
        exact ih rs j (List.nodup_cons.1 hnd).2 hj hjr

theorem length_update_moving_averaged_scores (alpha : ℚ) (scores : List ℚ)
    (uids : List Nat) (rewards : List ℚ) :
    (update_moving_averaged_scores alpha scores uids rewards).length
      = scores.length := by
  unfold update_moving_averaged_scores
  rw [List.length_zipWith, length_scatterFrom, min_self]

/-- C2: every uid in the update vector gets
`alpha * reward + (1 - alpha) * old_score`, and every position outside the
uid vector keeps its old score. -/
theorem update_moving_averaged_scores_pointwise (alpha : ℚ)
    (scores rewards : List ℚ) (uids : List Nat)
    (hlen : uids.length = rewards.length)
    (hb : ∀ u ∈ uids, u < scores.length)
    (hnd : uids.Nodup) :
    (∀ i, i < uids.length →
      (update_moving_averaged_scores alpha scores uids rewards).getD
          (uids.getD i 0) 0
        = alpha * rewards.getD i 0
          + (1 - alpha) * scores.getD (uids.getD i 0) 0)
    ∧ (∀ p, p < scores.length → p ∉ uids →
      (update_moving_averaged_scores alpha scores uids rewards).getD p 0
        = scores.getD p 0) := by
  constructor
  · intro i hi
    have hmem : uids.getD i 0 ∈ uids := by
      rw [List.getD_eq_getElem uids 0 hi]
      exact List.getElem_mem hi
    have hp : uids.getD i 0 < scores.length := hb _ hmem
    unfold update_moving_averaged_scores
    rw [getD_zipWith_blend _ _ _ _ (by rw [length_scatterFrom]; exact hp) hp]
    rw [getD_scatterFrom _ _ _ _ hp]
    unfold scatterAux
    rw [Nat.zero_add, find?_zip_nodup uids rewards i hnd hi (hlen ▸ hi)]
  · intro p hp hnot
    unfold update_moving_averaged_scores
    rw [getD_zipWith_blend _ _ _ _ (by rw [length_scatterFrom]; exact hp) hp]
    rw [getD_scatterFrom _ _ _ _ hp]
    unfold scatterAux
    rw [Nat.zero_add, find?_zip_eq_none uids rewards p hnot]
    ring

theorem update_moving_averaged_scores_pointwise_witness :
    (update_moving_averaged_scores (1/3) [1/2, 1/4] [1] [1]).getD
        (([1] : List Nat).getD 0 0) 0
      = 1/3 * (([1] : List ℚ).getD 0 0)
        + (1 - 1/3) * (([1/2, 1/4] : List ℚ).getD (([1] : List Nat).getD 0 0) 0)
    ∧ (update_moving_averaged_scores (1/3) [1/2, 1/4] [1] [1]).getD 0 0
      = ([1/2, 1/4] : List ℚ).getD 0 0 :=
  ⟨(update_moving_averaged_scores_pointwise (1/3) [1/2, 1/4] [1] [1]
      (by decide) (by decide) (by decide)).1 0 (by decide),
   (update_moving_averaged_scores_pointwise (1/3) [1/2, 1/4] [1] [1]
      (by decide) (by decide) (by decide)).2 0 (by decide) (by decide)⟩

/-- C3 counterexample: a worker with stored prior 0 (the zero-initialised
store) receiving its first reward 1 under `alpha = 1/2` ends at score `1/2`,
not at the reward `1` itself: there is no lazy initialisation to the first
observed reward in the update path. -/
theorem first_reward_not_lazily_initialized :
    (update_moving_averaged_scores (1/2) [0] [0] [1]).getD 0 0 = 1/2
    ∧ ((1 : ℚ)/2 ≠ 1) := by
  constructor
  · simp [update_moving_averaged_scores, scatterFrom, scatterAux, List.find?]
  · norm_num

/-- C3 amended: the first observed reward for a worker whose stored prior is
zero yields `alpha * r` (attenuated toward the stored zero), not `r`. -/
theorem update_first_reward_scales (alpha r : ℚ) (scores : List ℚ) (u : Nat)
    (hu : u < scores.length) (h0 : scores.getD u 0 = 0) :
    (update_moving_averaged_scores alpha scores [u] [r]).getD u 0
      = alpha * r := by
  have h := (update_moving_averaged_scores_pointwise alpha scores [r] [u]
    (by simp) (by simpa using hu) (by simp)).1 0 (by simp)
  simp only [List.getD_cons_zero] at h
  rw [h, h0]
  ring

theorem update_first_reward_scales_witness :
    (update_moving_averaged_scores (1/3) [0, 0] [1] [1]).getD 1 0
      = 1/3 * 1 :=
  update_first_reward_scales (1/3) 1 [0, 0] 1 (by decide) (by decide)

/-! ### Organic query history (`OrganicHistoryMixin`)
The history is a dict `uid -> list of {response, task, event, start_time}`,
modelled as an association list; response/task/event payloads are opaque. -/

/-- One recorded organic interaction (`organic_history` list element). The
`event` payload is opaque and irrelevant to the claims, so it is folded into
the opaque `response`/`task` payloads. -/
structure OrganicEntry (R T : Type) where
  response : R
  task : T
  start_time : ℚ
deriving DecidableEq

instance {R T : Type} [Inhabited R] [Inhabited T] :
    Inhabited (OrganicEntry R T) :=
  ⟨⟨default, default, 0⟩⟩

/-- `OrganicHistoryMixin.HISTORY_EXPIRY_TIME = 2 * 3600`. -/
def HISTORY_EXPIRY_TIME : ℚ := 2 * 3600

/-- `OrganicHistoryMixin._clean_organic_history`: keep entries with
`start_time >= current_time - HISTORY_EXPIRY_TIME`, then drop uids whose
entry list became empty (the redis `_save_history` side effect is external
state and not modelled). -/
def clean_organic_history {R T : Type} (now : ℚ)
    (history : List (Nat × List (OrganicEntry R T))) :
    List (Nat × List (OrganicEntry R T)) :=
  List.filter (fun p => 0 < p.2.length)
    (history.map (fun p =>
      (p.1, p.2.filter (fun e => now - HISTORY_EXPIRY_TIME ≤ e.start_time))))

theorem mem_clean_organic_history {R T : Type} (now : ℚ)
    (history : List (Nat × List (OrganicEntry R T))) (q : Nat × List (OrganicEntry R T))
    (hq : q ∈ clean_organic_history now history) :
    ∃ p ∈ history, q.1 = p.1
      ∧ q.2 = p.2.filter (fun e => now - HISTORY_EXPIRY_TIME ≤ e.start_time)
      ∧ 0 < q.2.length := by
  unfold clean_organic_history at hq
  rcases List.mem_filter.1 hq with ⟨hmem, hlen⟩
  rcases List.mem_map.1 hmem with ⟨p, hp, hpq⟩
  refine ⟨p, hp, ?_, ?_, ?_⟩
  · rw [← hpq]
  · rw [← hpq]
  · simpa using hlen

theorem clean_organic_history_keeps {R T : Type} (now : ℚ)
    (history : List (Nat × List (OrganicEntry R T)))
    (p : Nat × List (OrganicEntry R T)) (hp : p ∈ history)
    (e : OrganicEntry R T) (he : e ∈ p.2)
    (ht : now - HISTORY_EXPIRY_TIME ≤ e.start_time) :
    ∃ q ∈ clean_organic_history now history, q.1 = p.1 ∧ e ∈ q.2 := by
  refine ⟨(p.1, p.2.filter (fun e => now - HISTORY_EXPIRY_TIME ≤ e.start_time)),
    ?_, rfl, ?_⟩
  · unfold clean_organic_history
    apply List.mem_filter.2
    constructor
    · exact List.mem_map.2 ⟨p, hp, rfl⟩
    · have : e ∈ p.2.filter (fun e => now - HISTORY_EXPIRY_TIME ≤ e.start_time) :=
        List.mem_filter.2 ⟨he, by simpa using ht⟩
      simpa using List.length_pos.2 (List.ne_nil_of_mem this)
  · exact List.mem_filter.2 ⟨he, by simpa using ht⟩

/-- C4: `_clean_organic_history` keeps exactly the entries with
`start_time ≥ now - HISTORY_EXPIRY_TIME` (removing the strictly older ones
and nothing else), drops every uid whose list became empty, and — provided no
recorded entry postdates `now` — every surviving entry's start time lies in
`[now - HISTORY_EXPIRY_TIME, now]`. -/
theorem clean_organic_history_spec {R T : Type} (now : ℚ)
    (history : List (Nat × List (OrganicEntry R T))) :
    (∀ q ∈ clean_organic_history now history, q.2 ≠ [])
    ∧ (∀ q ∈ clean_organic_history now history, ∀ e ∈ q.2,
        now - HISTORY_EXPIRY_TIME ≤ e.start_time)
    ∧ (∀ p ∈ history, ∀ e ∈ p.2,
        (now - HISTORY_EXPIRY_TIME ≤ e.start_time ↔
          ∃ q ∈ clean_organic_history now history, q.1 = p.1 ∧ e ∈ q.2))
    ∧ ((∀ p ∈ history, ∀ e ∈ p.2, e.start_time ≤ now) →
        ∀ q ∈ clean_organic_history now history, ∀ e ∈ q.2,
          now - HISTORY_EXPIRY_TIME ≤ e.start_time ∧ e.start_time ≤ now) := by
  refine ⟨?_, ?_, ?_, ?_⟩
  · intro q hq
    rcases mem_clean_organic_history now history q hq with ⟨p, _, _, _, hlen⟩
    exact List.ne_nil_of_length_pos hlen
  · intro q hq e he
    rcases mem_clean_organic_history now history q hq with ⟨p, _, _, hfil, _⟩
    rw [hfil] at he
    simpa using (List.mem_filter.1 he).2
  · intro p hp e he
    constructor
    · intro ht
      exact clean_organic_history_keeps now history p hp e he ht
    · rintro ⟨q, hq, _, heq⟩
      rcases mem_clean_organic_history now history q hq with ⟨p', _, _, hfil, _⟩
      rw [hfil] at heq
      simpa using (List.mem_filter.1 heq).2
  · intro hle q hq e he
    rcases mem_clean_organic_history now history q hq with ⟨p, hp, _, hfil, _⟩
    rw [hfil] at he
    rcases List.mem_filter.1 he with ⟨hmem, ht⟩
    exact ⟨by simpa using ht, hle p hp e hmem⟩

theorem clean_organic_history_spec_witness :
    (∀ q ∈ clean_organic_history (R := Nat) (T := Nat) 7200 [(3, [⟨5, 6, 100⟩])],
      q.2 ≠ [])
    ∧ ((∀ p ∈ [((3 : Nat), [(⟨5, 6, 100⟩ : OrganicEntry Nat Nat)])],
          ∀ e ∈ p.2, e.start_time ≤ 7200) →
        ∀ q ∈ clean_organic_history (R := Nat) (T := Nat) 7200 [(3, [⟨5, 6, 100⟩])],
          ∀ e ∈ q.2,
            7200 - HISTORY_EXPIRY_TIME ≤ e.start_time ∧ e.start_time ≤ 7200) :=
  ⟨(clean_organic_history_spec 7200 [(3, [⟨5, 6, 100⟩])]).1,
   (clean_organic_history_spec 7200 [(3, [⟨5, 6, 100⟩])]).2.2.2⟩

/-- C4 counterexample: at `now = 0` an entry time-stamped in the future
(`start_time = 5`) survives cleaning, so the claim's invariant that every
surviving entry's start time lies within `[now - retention, now]` is false. -/
theorem clean_organic_history_future_entry_survives :
    clean_organic_history (R := Nat) (T := Nat) 0 [(0, [⟨0, 0, 5⟩])]
      = [(0, [⟨0, 0, 5⟩])]
    ∧ ¬ ((5 : ℚ) ≤ 0) := by
  constructor
  · norm_num [clean_organic_history, HISTORY_EXPIRY_TIME, List.filter]
  · norm_num

/-- The parallel lists built by `get_random_organic_responses` /
`get_latest_organic_responses` (the per-key `event` dict is opaque event
metadata and not modelled). -/
structure OrganicResponses (R T : Type) where
  uids : List Nat
  responses : List R
  tasks : List T

/-- `OrganicHistoryMixin.get_random_organic_responses`: clean the history,
then for each remaining uid pick the entry at `random.randint(0, len - 1)`
(the random draw is modelled by the oracle `pick`). -/
def get_random_organic_responses {R T : Type} [Inhabited R] [Inhabited T]
    (now : ℚ) (pick : Nat → Nat)
    (history : List (Nat × List (OrganicEntry R T))) : OrganicResponses R T :=
  let c := clean_organic_history now history
  { uids := c.map (fun p => p.1),
    responses := c.map (fun p => (p.2.getD (pick p.1) default).response),
    tasks := c.map (fun p => (p.2.getD (pick p.1) default).task) }

/-- `OrganicHistoryMixin.get_latest_organic_responses`: clean the history,
then for each remaining uid take the entry `item[-1]`. -/
def get_latest_organic_responses {R T : Type} [Inhabited R] [Inhabited T]
    (now : ℚ)
    (history : List (Nat × List (OrganicEntry R T))) : OrganicResponses R T :=
  let c := clean_organic_history now history
  { uids := c.map (fun p => p.1),
    responses := c.map (fun p => (p.2.getLastD default).response),
    tasks := c.map (fun p => (p.2.getLastD default).task) }

theorem getD_map_of_lt {α β : Type} (f : α → β) :
    ∀ (l : List α) (i : Nat) (d : α) (db : β), i < l.length →
      (l.map f).getD i db = f (l.getD i d) := by
  intro l
  induction l with
  | nil => intro i d db h; simp at h
  | cons x xs ih =>
    intro i d db h
    cases i with
    | zero => simp
    | succ j => simpa using ih j d db (by simpa using h)

theorem getD_mem_of_lt {α : Type} :
    ∀ (l : List α) (i : Nat) (d : α), i < l.length → l.getD i d ∈ l := by
  intro l i d h
  rw [List.getD_eq_getElem l d h]
  exact List.getElem_mem h

theorem getLastD_mem_of_ne_nil {α : Type} :
    ∀ (l : List α) (d : α), l ≠ [] → l.getLastD d ∈ l := by
  intro l
  induction l with
  | nil => intro d h; exact absurd rfl h
  | cons x xs ih =>
    intro d _
    cases hx : xs with
    | nil => simp [List.getLastD]
    | cons y ys =>
      rw [List.getLastD_cons]
      right
      rw [← hx]
      exact ih x (by simp [hx])

/-- C10: both organic-response getters return uid/response/task lists of one
element per worker surviving the cleaning, where position `i` carries the
uid of the `i`-th surviving worker and a response/task pair taken from one
entry of that worker's history list — the last (most recent) entry for
`get_latest_organic_responses`. -/
theorem organic_responses_parallel {R T : Type} [Inhabited R] [Inhabited T]
    (now : ℚ) (pick : Nat → Nat)
    (history : List (Nat × List (OrganicEntry R T)))
    (hpick : ∀ p ∈ clean_organic_history now history, pick p.1 < p.2.length) :
    ((get_random_organic_responses now pick history).uids.length
        = (clean_organic_history now history).length
    ∧ (get_random_organic_responses now pick history).responses.length
        = (clean_organic_history now history).length
    ∧ (get_random_organic_responses now pick history).tasks.length
        = (clean_organic_history now history).length
    ∧ ∀ i, i < (clean_organic_history now history).length →
        (get_random_organic_responses now pick history).uids.getD i 0
          = ((clean_organic_history now history).getD i (0, [])).1
        ∧ ∃ e ∈ ((clean_organic_history now history).getD i (0, [])).2,
            (get_random_organic_responses now pick history).responses.getD i default
              = e.response
            ∧ (get_random_organic_responses now pick history).tasks.getD i default
              = e.task)
    ∧ ((get_latest_organic_responses now history).uids.length
        = (clean_organic_history now history).length
    ∧ (get_latest_organic_responses now history).responses.length
        = (clean_organic_history now history).length
    ∧ (get_latest_organic_responses now history).tasks.length
        = (clean_organic_history now history).length
    ∧ ∀ i, i < (clean_organic_history now history).length →
        (get_latest_organic_responses now history).uids.getD i 0
          = ((clean_organic_history now history).getD i (0, [])).1
        ∧ (((clean_organic_history now history).getD i (0, [])).2.getLastD default)
            ∈ ((clean_organic_history now history).getD i (0, [])).2
        ∧ (get_latest_organic_responses now history).responses.getD i default
            = (((clean_organic_history now history).getD i (0, [])).2.getLastD default).response
        ∧ (get_latest_organic_responses now history).tasks.getD i default
            = (((clean_organic_history now history).getD i (0, [])).2.getLastD default).task) := by
  have hne : ∀ p ∈ clean_organic_history now history, p.2 ≠ [] := by
    intro p hp
    rcases mem_clean_organic_history now history p hp with ⟨_, _, _, _, hlen⟩
    exact List.ne_nil_of_length_pos hlen
  constructor
  · refine ⟨by simp [get_random_organic_responses],
      by simp [get_random_organic_responses],
      by simp [get_random_organic_responses], ?_⟩
    intro i hi
    have hmem : (clean_organic_history now history).getD i (0, [])
        ∈ clean_organic_history now history := getD_mem_of_lt _ i (0, []) hi
    constructor
    · exact getD_map_of_lt _ _ i (0, []) 0 hi
    · refine ⟨((clean_organic_history now history).getD i (0, [])).2.getD
        (pick ((clean_organic_history now history).getD i (0, [])).1) default,
        getD_mem_of_lt _ _ default (hpick _ hmem), ?_, ?_⟩
      · exact getD_map_of_lt _ _ i (0, []) default hi
      · exact getD_map_of_lt _ _ i (0, []) default hi
  · refine ⟨by simp [get_latest_organic_responses],
      by simp [get_latest_organic_responses],
      by simp [get_latest_organic_responses], ?_⟩
    intro i hi
    have hmem : (clean_organic_history now history).getD i (0, [])
        ∈ clean_organic_history now history := getD_mem_of_lt _ i (0, []) hi
    refine ⟨getD_map_of_lt _ _ i (0, []) 0 hi,
      getLastD_mem_of_ne_nil _ default (hne _ hmem),
      getD_map_of_lt _ _ i (0, []) default hi,
      getD_map_of_lt _ _ i (0, []) default hi⟩

theorem organic_responses_parallel_witness :
    (get_random_organic_responses (R := Nat) (T := Nat) 0 (fun _ => 0)
        [(3, [⟨7, 8, 0⟩])]).uids.length
      = (clean_organic_history (R := Nat) (T := Nat) 0 [(3, [⟨7, 8, 0⟩])]).length
    ∧ (get_latest_organic_responses (R := Nat) (T := Nat) 0
        [(3, [⟨7, 8, 0⟩])]).uids.length
      = (clean_organic_history (R := Nat) (T := Nat) 0 [(3, [⟨7, 8, 0⟩])]).length := by
  have h := organic_responses_parallel (R := Nat) (T := Nat) 0 (fun _ => 0)
    [(3, [⟨7, 8, 0⟩])] (by
      intro p hp
      have hc : clean_organic_history (R := Nat) (T := Nat) 0 [(3, [⟨7, 8, 0⟩])]
          = [(3, [⟨7, 8, 0⟩])] := by
        norm_num [clean_organic_history, HISTORY_EXPIRY_TIME, List.filter]
      rw [hc] at hp
      simp at hp
      simp [hp])
  exact ⟨h.1.1, h.2.1⟩

/-! ### Worker selection (`Neuron.get_uids`) -/

/-- The query strategies reaching `Neuron.get_uids` (`datura.QUERY_MINERS`). -/
inductive QUERY_MINERS where
  | RANDOM
  | ALL
deriving DecidableEq

/-- `Neuron.get_uids`. If `available_uids` is empty it is returned as is.
Otherwise `uid_list` filters by `specified_uids` (Python falsy: `None` or an
empty list passes everything) and by the allow-list when
`is_only_allowed_miner`. `RANDOM` wraps `uid_manager.get_miner_uid()` —
modelled from the spec as the abstract argument `minerUid`, one id drawn by
rotation from the available set, `none` when none is available — through the
Python truthiness test `torch.tensor([uid]) if uid else torch.tensor([])`,
under which both `None` and uid `0` produce the empty tensor. `ALL` returns
`uid_list` (empty tensor when `uid_list` is falsy). -/
def get_uids (available : List Nat) (strategy : QUERY_MINERS)
    (minerUid : Option Nat) (specified : Option (List Nat))
    (isOnlyAllowedMiner : Bool) (allowedColdkey : Nat → Bool) : List Nat :=
  if available.isEmpty then available
  else
    let uidList := available.filter (fun uid =>
      (match specified with
       | none => true
       | some l => l.isEmpty || l.contains uid)
      && (!isOnlyAllowedMiner || allowedColdkey uid))
    match strategy with
    | QUERY_MINERS.RANDOM =>
      match minerUid with
      | some u => if u != 0 then [u] else []
      | none => []
    | QUERY_MINERS.ALL => if uidList.isEmpty then [] else uidList

/-- C5 (code bug): with the available set `[0]` and the rotation handing out
uid `0`, `get_uids(RANDOM)` returns the empty sequence — the truthiness test
`if uid` confuses the valid uid `0` with "no miner" — although the claim
requires exactly one selected id on a non-empty available set. A nonzero uid
yields a singleton, and an empty membership yields the empty sequence for
both strategies. -/
theorem get_uids_random_truthiness_bug :
    get_uids [0] QUERY_MINERS.RANDOM (some 0) none false (fun _ => true) = []
    ∧ get_uids [5] QUERY_MINERS.RANDOM (some 5) none false (fun _ => true) = [5]
    ∧ get_uids [] QUERY_MINERS.RANDOM none none false (fun _ => true) = []
    ∧ get_uids [] QUERY_MINERS.ALL none none false (fun _ => true) = [] :=
  ⟨rfl, rfl, rfl, rfl⟩

/-! ### Epoch sync and weight commit (`Neuron.sync`,
`Neuron.blocks_until_next_epoch`, `Neuron.should_set_weights`) -/

/-- `Neuron.should_set_weights`: false when weight setting is disabled by
configuration, else true. -/
def should_set_weights (disableSetWeights : Bool) : Bool :=
  !disableSetWeights

/-- `Neuron.blocks_until_next_epoch`:
`tempo - (current_block + netuid + 1) % (tempo + 1)` (Python `%` on a
positive modulus matches `Int.emod`). -/
def blocks_until_next_epoch (tempo currentBlock netuid : ℤ) : ℤ :=
  tempo - (currentBlock + netuid + 1) % (tempo + 1)

/-- The externally visible actions of one iteration of the `Neuron.sync`
loop body. -/
structure SyncAction where
  setWeights : Bool
  computeOrganicSpawned : Bool
  organicComputedAfter : Bool
deriving DecidableEq

/-- One iteration of the `while True` body of `Neuron.sync`: commit weights
when `blocks_left <= 20 and self.should_set_weights()`; when synthetic
queries are disabled, spawn the organic recomputation once per approach to
the epoch boundary (`blocks_left <= 100`), resetting the flag otherwise. -/
def sync_iteration (blocksLeft : ℤ)
    (disableSetWeights syntheticDisabled organicComputed : Bool) : SyncAction :=
  let setW := decide (blocksLeft ≤ 20) && should_set_weights disableSetWeights
  if syntheticDisabled then
    if blocksLeft ≤ 100 then
      if organicComputed then ⟨setW, false, true⟩ else ⟨setW, true, true⟩
    else ⟨setW, false, false⟩
  else ⟨setW, false, organicComputed⟩

theorem sync_iteration_setWeights (blocksLeft : ℤ)
    (disableSetWeights syntheticDisabled organicComputed : Bool) :
    (sync_iteration blocksLeft disableSetWeights syntheticDisabled
        organicComputed).setWeights
      = (decide (blocksLeft ≤ 20) && !disableSetWeights) := by
  cases syntheticDisabled <;> cases organicComputed <;>
    by_cases hb : blocksLeft ≤ 100 <;>
      simp [sync_iteration, should_set_weights, hb]

/-- C7 counterexample: at exactly 20 blocks before the epoch boundary the
code commits weights, although "fewer than 20 blocks remaining" is false
there. -/
theorem sync_commits_at_exactly_20_blocks :
    (sync_iteration 20 false false false).setWeights = true
    ∧ ¬ ((20 : ℤ) < 20) := by
  constructor
  · decide
  · norm_num

/-- C7 amended: a sync iteration commits weights exactly when the epoch
countdown reports at most 20 blocks (fewer than 21) remaining and weight
setting is not disabled by configuration; every other iteration performs no
commit. -/
theorem sync_sets_weights_iff (tempo currentBlock netuid : ℤ)
    (disableSetWeights syntheticDisabled organicComputed : Bool) :
    (sync_iteration (blocks_until_next_epoch tempo currentBlock netuid)
        disableSetWeights syntheticDisabled organicComputed).setWeights = true
      ↔ (blocks_until_next_epoch tempo currentBlock netuid ≤ 20
          ∧ disableSetWeights = false) := by
  rw [sync_iteration_setWeights]
  cases disableSetWeights <;> simp

/-! ### Task-validation penalties
(`TaskValidationPenaltyModel.calculate_penalties`) -/

/-- A miner response as consumed by the penalty model: only its
`completion` field is read. -/
structure Response (C : Type) where
  completion : C

/-- `TaskValidationPenaltyModel.calculate_penalties`: start from a zero
tensor of one entry per completion and `add_` each criterion's evaluation
of the completion batch (criteria evaluators are abstract collaborators). -/
def calculate_penalties {C : Type} (criteria : List (List C → List ℚ))
    (responses : List (Response C)) : List ℚ :=
  let completions := responses.map (fun r => r.completion)
  criteria.foldl
    (fun acc criterion => List.zipWith (fun x y => x + y) acc (criterion completions))
    (List.replicate completions.length 0)

theorem getD_replicate_zero : ∀ (n i : Nat), (List.replicate n (0 : ℚ)).getD i 0 = 0 := by
  intro n
  induction n with
  | zero => intro i; simp
  | succ m ih =>
    intro i
    cases i with
    | zero => simp [List.replicate]
    | succ j => rw [List.replicate, List.getD_cons_succ]; exact ih j

theorem penalty_foldl_spec :
    ∀ (vs : List (List ℚ)) (acc : List ℚ), (∀ v ∈ vs, v.length = acc.length) →
      (vs.foldl (fun a v => List.zipWith (fun x y => x + y) a v) acc).length
          = acc.length
      ∧ ∀ i, i < acc.length →
          (vs.foldl (fun a v => List.zipWith (fun x y => x + y) a v) acc).getD i 0
            = acc.getD i 0 + (vs.map (fun v => v.getD i 0)).sum := by
  intro vs
  induction vs with
  | nil => intro acc _; exact ⟨rfl, fun i _ => by simp⟩
  | cons v vs ih =>
    intro acc hwf
    have hv : v.length = acc.length := hwf v (by simp)
    have hlen : (List.zipWith (fun x y : ℚ => x + y) acc v).length = acc.length := by
      rw [List.length_zipWith, hv, min_self]
    have hrest : ∀ w ∈ vs, w.length = (List.zipWith (fun x y : ℚ => x + y) acc v).length := by
      intro w hw
      rw [hlen]
      exact hwf w (by simp [hw])
    rcases ih (List.zipWith (fun x y => x + y) acc v) hrest with ⟨ihl, ihd⟩
    constructor
    · simpa [hlen] using ihl
    · intro i hi
      have hi' : i < (List.zipWith (fun x y : ℚ => x + y) acc v).length := by
        rw [hlen]; exact hi
      calc ((v :: vs).foldl (fun a w => List.zipWith (fun x y => x + y) a w) acc).getD i 0
          = (List.zipWith (fun x y : ℚ => x + y) acc v).getD i 0
            + (vs.map (fun w => w.getD i 0)).sum := by
            simpa using ihd i hi'
        _ = acc.getD i 0 + ((v :: vs).map (fun w => w.getD i 0)).sum := by
            rw [getD_zipWith_blend _ _ _ _ hi (hv ▸ hi)]
            simp
            ring

/-- C8: `calculate_penalties` returns one entry per response, the entry at
position `i` being the sum over the task's criteria of that criterion's
evaluation of the completion batch at `i` (zero when the task has no
criteria). -/
theorem calculate_penalties_spec {C : Type} (criteria : List (List C → List ℚ))
    (responses : List (Response C))
    (hwf : ∀ crit ∈ criteria,
      (crit (responses.map (fun r => r.completion))).length = responses.length) :
    (calculate_penalties criteria responses).length = responses.length
    ∧ ∀ i, i < responses.length →
        (calculate_penalties criteria responses).getD i 0
          = (criteria.map
              (fun crit => (crit (responses.map (fun r => r.completion))).getD i 0)).sum := by
  have hfold : calculate_penalties criteria responses
      = (criteria.map (fun crit => crit (responses.map (fun r => r.completion)))).foldl
          (fun a v => List.zipWith (fun x y => x + y) a v)
          (List.replicate (responses.map (fun r => r.completion)).length 0) := by
    unfold calculate_penalties
    rw [List.foldl_map]
  have hreplen : (List.replicate (responses.map (fun r => r.completion)).length (0 : ℚ)).length
      = responses.length := by
    simp
  have hwf' : ∀ v ∈ criteria.map (fun crit => crit (responses.map (fun r => r.completion))),
      v.length = (List.replicate (responses.map (fun r => r.completion)).length (0 : ℚ)).length := by
    intro v hv
    rcases List.mem_map.1 hv with ⟨crit, hc, rfl⟩
    rw [hreplen]
    exact hwf crit hc
  rcases penalty_foldl_spec _ _ hwf' with ⟨hl, hd⟩
  constructor
  · rw [hfold, hl, hreplen]
  · intro i hi
    rw [hfold, hd i (by rw [hreplen]; exact hi), getD_replicate_zero, List.map_map]
    rw [zero_add]
    rfl

theorem calculate_penalties_spec_witness :
    (calculate_penalties (C := Nat)
        [fun l => l.map (fun _ => 1/2)] [⟨3⟩]).length
      = ([⟨3⟩] : List (Response Nat)).length :=
  (calculate_penalties_spec [fun l => l.map (fun _ => 1/2)] [⟨3⟩]
    (by intro crit hc; simp at hc; simp [hc])).1

/-! ### Liveness probing (`Neuron.check_uid`,
`Neuron.get_available_uids_is_alive`) -/

/-- `Neuron.check_uid`: call `dendrite(axon, IsAlive(), timeout=15)`
(`probe uid 15`, an abstract transport returning an error or a response
whose `is_success` flag is a `Bool`); return the axon — identified here by
its uid — on success, raise otherwise. -/
def check_uid (probe : Nat → Nat → Except Unit Bool) (uid : Nat) :
    Except Unit Nat :=
  match probe uid 15 with
  | Except.error _ => Except.error ()
  | Except.ok s => if s then Except.ok uid else Except.error ()

/-- `Neuron.get_available_uids_is_alive`: probe every uid of the metagraph,
gather results with exceptions kept in place (`return_exceptions=True`), and
keep exactly the uids whose probe did not raise. -/
def get_available_uids_is_alive (uids : List Nat)
    (probe : Nat → Nat → Except Unit Bool) : List Nat :=
  let results := uids.map (fun uid => check_uid probe uid)
  (uids.zip results).filterMap (fun p =>
    match p.2 with
    | Except.ok _ => some p.1
    | Except.error _ => none)

theorem get_available_uids_cons (probe : Nat → Nat → Except Unit Bool)
    (u : Nat) (us : List Nat) :
    get_available_uids_is_alive (u :: us) probe
      = match check_uid probe u with
        | Except.ok _ => u :: get_available_uids_is_alive us probe
        | Except.error _ => get_available_uids_is_alive us probe := by
  cases h : check_uid probe u <;>
    simp [get_available_uids_is_alive, List.filterMap_cons, h]

theorem mem_get_available_uids_is_alive (probe : Nat → Nat → Except Unit Bool) :
    ∀ (uids : List Nat) (u : Nat),
      u ∈ get_available_uids_is_alive uids probe
        ↔ u ∈ uids ∧ probe u 15 = Except.ok true := by
  intro uids
  induction uids with
  | nil => intro u; simp [get_available_uids_is_alive]
  | cons v us ih =>
    intro u
    rw [get_available_uids_cons]
    have herr : check_uid probe v = Except.error () →
        (u ∈ get_available_uids_is_alive us probe
          ↔ u ∈ v :: us ∧ probe u 15 = Except.ok true) := by
      intro hc
      constructor
      · intro h
        have h' := (ih u).1 h
        exact ⟨by simp [h'.1], h'.2⟩
      · rintro ⟨h1, h2⟩
        rcases List.mem_cons.1 h1 with rfl | h1
        · exfalso
          unfold check_uid at hc
          rw [h2] at hc
          simp at hc
        · exact (ih u).2 ⟨h1, h2⟩
    rcases hp : probe v 15 with e | b
    · have hc : check_uid probe v = Except.error () := by
        unfold check_uid; rw [hp]
      rw [hc]
      exact herr hc
    · cases b with
      | false =>
        have hc : check_uid probe v = Except.error () := by
          unfold check_uid; rw [hp]; simp
        rw [hc]
        exact herr hc
      | true =>
        have hc : check_uid probe v = Except.ok v := by
          unfold check_uid; rw [hp]; simp
        rw [hc]
        simp only [List.mem_cons]
        constructor
        · rintro (rfl | h)
          · exact ⟨Or.inl rfl, hp⟩
          · have h' := (ih u).1 h
            exact ⟨Or.inr h'.1, h'.2⟩
        · rintro ⟨rfl | h1, h2⟩
          · exact Or.inl rfl
          · exact Or.inr ((ih u).2 ⟨h1, h2⟩)

/-- C9: the membership refresh probes each metagraph uid with a
15-unit-timeout liveness call and returns exactly the uids whose probe came
back successful; a failing probe excludes only its own uid — two probe
functions agreeing outside `u` produce refreshed memberships agreeing on
every uid other than `u` — and the refresh is total (exceptions are kept as
per-uid error results, never propagated). -/
theorem get_available_uids_is_alive_spec (uids : List Nat)
    (probe probe2 : Nat → Nat → Except Unit Bool) (u : Nat) :
    (u ∈ get_available_uids_is_alive uids probe
      ↔ u ∈ uids ∧ probe u 15 = Except.ok true)
    ∧ ((∀ v, v ≠ u → probe v 15 = probe2 v 15) →
        ∀ v, v ≠ u →
          (v ∈ get_available_uids_is_alive uids probe
            ↔ v ∈ get_available_uids_is_alive uids probe2)) := by
  constructor
  · exact mem_get_available_uids_is_alive probe uids u
  · intro h v hv
    rw [mem_get_available_uids_is_alive probe uids v,
      mem_get_available_uids_is_alive probe2 uids v, h v hv]

theorem get_available_uids_is_alive_spec_witness :
    0 ∈ get_available_uids_is_alive [0, 1] (fun _ _ => Except.ok true) :=
  (get_available_uids_is_alive_spec [0, 1] (fun _ _ => Except.ok true)
    (fun _ _ => Except.ok true) 0).1.2 ⟨by simp, rfl⟩

/-! ### LLM scoring fallback chain (`RewardLLM.llm_processing`)
Messages are identified by their key; a scoring oracle
(`get_score_by_source`) is an abstract collaborator that either fails as a
whole or returns one score text (possibly `None`) per message. Score texts
are character lists; a score is usable when it contains a digit
(`any(char.isdigit() for char in score_text)`). -/

/-- `any(char.isdigit() for char in score_text)`. -/
def hasDigit (s : List Char) : Bool :=
  s.any Char.isDigit

/-- An abstract scoring source (Subnet18 / OpenAI / local LLM adapters are
external collaborators): it either fails wholesale or maps each message key
to a score text (`none` models a Python `None` entry). -/
structure Oracle where
  fails : Bool
  score : Nat → Option (List Char)

/-- `RewardLLM.get_score_by_source` abstracted: `none` for a wholesale
failure (a falsy `current_score_responses`), otherwise one score text per
message in order. -/
def get_score_by_source (o : Oracle) (messages : List Nat) :
    Option (List (Option (List Char))) :=
  if o.fails then none else some (messages.map o.score)

/-- Python `dict.update`: existing keys are overwritten in place, new keys
are appended. -/
def dictUpdate {V : Type} (acc new : List (Nat × V)) : List (Nat × V) :=
  acc.map (fun p => (p.1, (List.lookup p.1 new).getD p.2))
    ++ new.filter (fun q => (List.lookup q.1 acc).isNone)

/-- The `for source in scoring_sources` loop of `RewardLLM.llm_processing`:
a falsy result skips the source wholesale; otherwise `score_responses` is
updated with the new scores and the messages whose score text is non-`None`
and digit-free are retried with the next source; the loop stops early when
no message remains. -/
def llm_processing_loop :
    List Oracle → List Nat → List (Nat × Option (List Char)) →
      List (Nat × Option (List Char))
  | [], _, acc => acc
  | s :: rest, messages, acc =>
    match get_score_by_source s messages with
    | none => llm_processing_loop rest messages acc
    | some scores =>
      if scores.isEmpty then llm_processing_loop rest messages acc
      else
        let pairs := messages.zip scores
        let remaining := (pairs.zip messages).filterMap (fun pm =>
          match pm.1.2 with
          | none => none
          | some text => if hasDigit text then none else some pm.2)
        if remaining.isEmpty then dictUpdate acc pairs
        else llm_processing_loop rest remaining (dictUpdate acc pairs)

/-- `RewardLLM.llm_processing`: run the fallback loop over the configured
source order starting from an empty `score_responses` dict. -/
def llm_processing (sources : List Oracle) (messages : List Nat) :
    List (Nat × Option (List Char)) :=
  llm_processing_loop sources messages []

/-- Specification-side definition (spec wording): the score produced by the
first source in the configured order that yields a usable (digit-containing)
score for the given item. -/
def firstUsableScore (sources : List Oracle) (k : Nat) : Option (List Char) :=
  match sources with
  | [] => none
  | s :: rest =>
    if s.fails then firstUsableScore rest k
    else
      match s.score k with
      | some t => if hasDigit t then some t else firstUsableScore rest k
      | none => firstUsableScore rest k

theorem lookup_append {V : Type} (k : Nat) :
    ∀ (l₁ l₂ : List (Nat × V)), List.lookup k (l₁ ++ l₂)
      = match List.lookup k l₁ with
        | some v => some v
        | none => List.lookup k l₂ := by
  intro l₁
  induction l₁ with
  | nil => intro l₂; simp [List.lookup]
  | cons p t ih =>
    intro l₂
    rcases p with ⟨a, b⟩
    by_cases h : k == a
    · simp [List.lookup, h]
    · simp only [List.cons_append, List.lookup, h]
      exact ih l₂

theorem lookup_map_update {V : Type} (new : List (Nat × V)) (k : Nat) :
    ∀ (acc : List (Nat × V)),
      List.lookup k (acc.map (fun p => (p.1, (List.lookup p.1 new).getD p.2)))
        = (List.lookup k acc).map (fun v => (List.lookup k new).getD v) := by
  intro acc
  induction acc with
  | nil => simp [List.lookup]
  | cons p t ih =>
    rcases p with ⟨a, b⟩
    by_cases h : k == a
    · have ha : k = a := by simpa using h
      subst ha
      simp [List.lookup, h]
    · simp only [List.map_cons, List.lookup, h]
      exact ih

theorem lookup_filter_key {V : Type} (pred : Nat → Bool) (k : Nat)
    (hk : pred k = true) :
    ∀ (l : List (Nat × V)),
      List.lookup k (l.filter (fun q => pred q.1)) = List.lookup k l := by
  intro l
  induction l with
  | nil => simp
  | cons p t ih =>
    rcases p with ⟨a, b⟩
    by_cases ha : pred a
    · by_cases h : k == a
      · simp [List.filter_cons, ha, List.lookup, h]
      · simp only [List.filter_cons, ha, if_true, List.lookup, h]
        exact ih
    · have h : (k == a) = false := by
        rcases Bool.eq_false_or_eq_true (k == a) with ht | hf
        · have : k = a := by simpa using ht
          subst this
          exact absurd hk (by simpa using ha)
        · exact hf
      simp only [List.filter_cons, ha, if_false, List.lookup, h]
      simpa [h] using ih

theorem lookup_dictUpdate {V : Type} (acc new : List (Nat × V)) (k : Nat) :
    List.lookup k (dictUpdate acc new)
      = match List.lookup k new with
        | some w => some w
        | none => List.lookup k acc := by
  unfold dictUpdate
  rw [lookup_append, lookup_map_update]
  rcases hacc : List.lookup k acc with _ | v
  · rw [lookup_filter_key (fun a => (List.lookup a acc).isNone) k (by simp [hacc])]
    rcases hnew : List.lookup k new with _ | w <;> simp
  · rcases hnew : List.lookup k new with _ | w <;> simp

theorem lookup_zip_map_score (f : Nat → Option (List Char)) (k : Nat) :
    ∀ (msgs : List Nat), List.lookup k (msgs.zip (msgs.map f))
      = if k ∈ msgs then some (f k) else none := by
  intro msgs
  induction msgs with
  | nil => simp
  | cons m t ih =>
    by_cases h : k == m
    · have hm : k = m := by simpa using h
      subst hm
      simp [List.lookup, h]
    · have hm : ¬ (k = m) := by simpa using h
      have ih' : List.lookup k (List.zipWith Prod.mk t (List.map f t))
          = if k ∈ t then some (f k) else none := ih
      simp only [List.map_cons, List.zip_cons_cons, List.lookup, h, List.mem_cons]
      rw [ih']
      by_cases ht : k ∈ t <;> simp [ht, hm]

theorem zip_zip_self (f : Nat → Option (List Char)) :
    ∀ (msgs : List Nat),
      ((msgs.zip (msgs.map f)).zip msgs) = msgs.map (fun m => ((m, f m), m)) := by
  intro msgs
  induction msgs with
  | nil => rfl
  | cons m t ih => simp [ih]

theorem remaining_filterMap_eq (f : Nat → Option (List Char)) (msgs : List Nat) :
    ((msgs.zip (msgs.map f)).zip msgs).filterMap (fun pm =>
      match pm.1.2 with
      | none => none
      | some text => if hasDigit text then none else some pm.2)
    = msgs.filterMap (fun m =>
      match f m with
      | none => none
      | some text => if hasDigit text then none else some m) := by
  rw [zip_zip_self, List.filterMap_map]
  rfl

theorem mem_remaining_iff (f : Nat → Option (List Char)) (msgs : List Nat)
    (k : Nat) :
    (k ∈ msgs.filterMap (fun m =>
      match f m with
      | none => none
      | some text => if hasDigit text then none else some m))
    ↔ (k ∈ msgs ∧ ∃ t, f k = some t ∧ hasDigit t = false) := by
  rw [List.mem_filterMap]
  constructor
  · rintro ⟨a, ha, hg⟩
    rcases hf : f a with _ | t
    · rw [hf] at hg
      simp at hg
    · rw [hf] at hg
      by_cases hd : hasDigit t
      · simp [hd] at hg
      · simp only [hd] at hg
        have hak : a = k := by simpa using hg
        subst hak
        exact ⟨ha, t, hf, by simpa using hd⟩
  · rintro ⟨hk, t, hf, hd⟩
    exact ⟨k, hk, by rw [hf]; simp [hd]⟩

theorem llm_loop_lookup_not_mem :
    ∀ (sources : List Oracle) (msgs : List Nat)
      (acc : List (Nat × Option (List Char))) (k : Nat), k ∉ msgs →
      List.lookup k (llm_processing_loop sources msgs acc)
        = List.lookup k acc := by
  intro sources
  induction sources with
  | nil => intro msgs acc k _; rfl
  | cons s rest ih =>
    intro msgs acc k hk
    by_cases hf : s.fails
    · have hg : get_score_by_source s msgs = none := by
        simp [get_score_by_source, hf]
      simp only [llm_processing_loop, hg]
      exact ih msgs acc k hk
    · have hg : get_score_by_source s msgs = some (msgs.map s.score) := by
        simp [get_score_by_source, hf]
      have hkz : List.lookup k (msgs.zip (msgs.map s.score)) = none := by
        rw [lookup_zip_map_score]
        simp [hk]
      have hacc2 : List.lookup k (dictUpdate acc (msgs.zip (msgs.map s.score)))
          = List.lookup k acc := by
        rw [lookup_dictUpdate, hkz]
      have hkr : k ∉ msgs.filterMap (fun m =>
          match s.score m with
          | none => none
          | some text => if hasDigit text then none else some m) := by
        rw [mem_remaining_iff]
        intro hmem
        exact hk hmem.1
      simp only [llm_processing_loop, hg, remaining_filterMap_eq]
      by_cases he : (msgs.map s.score).isEmpty = true
      · rw [if_pos he]
        exact ih msgs acc k hk
      · rw [if_neg he]
        by_cases hre : (msgs.filterMap (fun m =>
            match s.score m with
            | none => none
            | some text => if hasDigit text then none else some m)).isEmpty = true
        · rw [if_pos hre]
          exact hacc2
        · rw [if_neg hre, ih _ _ k hkr]
          exact hacc2

theorem llm_loop_first_usable :
    ∀ (sources : List Oracle) (msgs : List Nat)
      (acc : List (Nat × Option (List Char))) (k : Nat) (t : List Char),
      k ∈ msgs →
      (∀ s ∈ sources, s.fails = false → s.score k ≠ none) →
      firstUsableScore sources k = some t →
      List.lookup k (llm_processing_loop sources msgs acc)
        = some (some t) := by
  intro sources
  induction sources with
  | nil =>
    intro msgs acc k t _ _ hfu
    simp [firstUsableScore] at hfu
  | cons s rest ih =>
    intro msgs acc k t hk hnone hfu
    by_cases hf : s.fails
    · have hg : get_score_by_source s msgs = none := by
        simp [get_score_by_source, hf]
      have hfu' : firstUsableScore rest k = some t := by
        simpa [firstUsableScore, hf] using hfu
      simp only [llm_processing_loop, hg]
      exact ih msgs acc k t hk
        (fun s' hs' => hnone s' (by simp [hs'])) hfu'
    · have hg : get_score_by_source s msgs = some (msgs.map s.score) := by
        simp [get_score_by_source, hf]
      have hsk : s.score k ≠ none := hnone s (by simp) (by simpa using hf)
      rcases hsc : s.score k with _ | txt
      · exact absurd hsc hsk
      have hne : ¬ ((msgs.map s.score).isEmpty = true) := by
        cases msgs with
        | nil => exact absurd hk (by simp)
        | cons a l => simp
      have hkz : List.lookup k (msgs.zip (msgs.map s.score))
          = some (s.score k) := by
        rw [lookup_zip_map_score]
        simp [hk]
      have hacc2 : List.lookup k (dictUpdate acc (msgs.zip (msgs.map s.score)))
          = some (s.score k) := by
        rw [lookup_dictUpdate, hkz]
      simp only [llm_processing_loop, hg, remaining_filterMap_eq]
      rw [if_neg hne]
      by_cases hd : hasDigit txt = true
      · have ht : txt = t := by
          have h := hfu
          simp [firstUsableScore, hf, hsc, hd] at h
          exact h
        have hkr : k ∉ msgs.filterMap (fun m =>
            match s.score m with
            | none => none
            | some text => if hasDigit text then none else some m) := by
          rw [mem_remaining_iff]
          rintro ⟨_, t', ht', hd'⟩
          rw [hsc] at ht'
          have : txt = t' := by simpa using ht'
          subst this
          rw [hd] at hd'
          cases hd'
        by_cases hre : (msgs.filterMap (fun m =>
            match s.score m with
            | none => none
            | some text => if hasDigit text then none else some m)).isEmpty = true
        · rw [if_pos hre, hacc2, hsc, ht]
        · rw [if_neg hre, llm_loop_lookup_not_mem rest _ _ k hkr, hacc2, hsc, ht]
      · have hfu' : firstUsableScore rest k = some t := by
          simpa [firstUsableScore, hf, hsc, hd] using hfu
        have hkr : k ∈ msgs.filterMap (fun m =>
            match s.score m with
            | none => none
            | some text => if hasDigit text then none else some m) := by
          rw [mem_remaining_iff]
          exact ⟨hk, txt, hsc, by simpa using hd⟩
        have hre : ¬ ((msgs.filterMap (fun m =>
            match s.score m with
            | none => none
            | some text => if hasDigit text then none else some m)).isEmpty = true) := by
          intro hemp
          rw [List.isEmpty_iff] at hemp
          rw [hemp] at hkr
          cases hkr
        rw [if_neg hre]
        exact ih _ _ k t hkr
          (fun s' hs' => hnone s' (by simp [hs'])) hfu'

/-- C6 amended: oracles are tried in the fixed configured order; a source
failing wholesale is skipped for all pending items and an item whose score
text contains no digit is retried with the next source, so — provided no
non-failing source returns a `None` score for the item — the item's final
score is the one from the first source in the order yielding a
digit-containing (usable) score for it. (An item scored `None` is recorded
as `None` and dropped from the retry set; see the counterexample.) -/
theorem llm_processing_first_usable (sources : List Oracle)
    (messages : List Nat) (k : Nat) (t : List Char) (hk : k ∈ messages)
    (hnone : ∀ s ∈ sources, s.fails = false → s.score k ≠ none)
    (ht : firstUsableScore sources k = some t) :
    List.lookup k (llm_processing sources messages) = some (some t) :=
  llm_loop_first_usable sources messages [] k t hk hnone ht

theorem llm_processing_first_usable_witness :
    List.lookup 0 (llm_processing
        [⟨true, fun _ => some ['9']⟩, ⟨false, fun _ => some ['8']⟩] [0, 1])
      = some (some ['8']) :=
  llm_processing_first_usable
    [⟨true, fun _ => some ['9']⟩, ⟨false, fun _ => some ['8']⟩] [0, 1] 0 ['8']
    (by simp)
    (by
      intro s hs hfail
      simp only [List.mem_cons, List.mem_singleton] at hs
      rcases hs with rfl | rfl | hs
      · simp at hfail
      · simp
      · cases hs)
    rfl

/-- C6 counterexample: the first source answers `None` for item `0`; the
code records score `None` for it and does not retry it, although the second
source — the first one yielding a usable score for the item — would have
scored it `"7"`. The claim that the final per-item score comes from the
first source yielding a usable score is therefore false as stated. -/
theorem llm_processing_none_not_retried :
    List.lookup 0 (llm_processing
        [⟨false, fun _ => none⟩, ⟨false, fun _ => some ['7']⟩] [0])
      = some none
    ∧ firstUsableScore
        [⟨false, fun _ => none⟩, ⟨false, fun _ => some ['7']⟩] 0 = some ['7']
    ∧ some (none : Option (List Char)) ≠ some (some ['7']) := by
  refine ⟨rfl, rfl, by simp⟩

end Desearch
